import Mathlib

/-!
Verification development for the document/command engine of a multi-view
plain-text editor (`editor.py`): the mutable text buffer, the reversible
insert/delete commands, run-length grouping of consecutive same-kind edits
into single undo entries, the undo/redo stacks, and the absolute-offset to
(row, column) coordinate mapping.

The Python source is embedded shallowly: the mutable document becomes
explicit state passing, Python `str` becomes `List Char`, Python `int`
becomes `Int`, and Python's slice semantics (negative indices count from
the end, out-of-range indices clamp) are modelled by `pyIdx` / `pySlice`.
-/

/-- Buffer content: a Python `str` as a list of characters. -/
abbrev Content := List Char

/-- Normalize a Python slice bound `i` for a sequence of length `n`:
a negative bound counts from the end of the sequence, and bounds are
clamped into `[0, n]`.  (`Int.toNat` already sends negatives to `0`.) -/
def pyIdx (n : Nat) (i : Int) : Nat :=
  if i < 0 then ((n : Int) + i).toNat else min i.toNat n

/-- Python `s[:b]`. -/
def pySliceTo (s : Content) (b : Int) : Content :=
  s.take (pyIdx s.length b)

/-- Python `s[a:]`. -/
def pySliceFrom (s : Content) (a : Int) : Content :=
  s.drop (pyIdx s.length a)

/-- Python `s[a:b]`. -/
def pySlice (s : Content) (a b : Int) : Content :=
  (s.take (pyIdx s.length b)).drop (pyIdx s.length a)

/-- A Python value in a cursor/selection slot: either `None` or a pair
`(selection_start, selection_end)` whose components may themselves be
`None`, exactly as the view layer passes
`(self.selection_start, self.selection_end)`. -/
inductive PySel where
  | pynone : PySel
  | pair (a b : Option Int) : PySel
deriving DecidableEq

/-- `InsertCommand` (editor.py lines 21-25).  The `doc` back-reference is
replaced by passing the buffer explicitly to `execute`/`undo`; the
write-only fields `cursor_after`/`selection_after` (assigned by `execute`
and by the merge branches, never read anywhere) are omitted. -/
structure InsertCommand where
  text : Content
  pos : Int
  cursor_before : Int
  selection_before : PySel
  window_id : Nat
deriving DecidableEq

/-- `DeleteCommand` fields (editor.py lines 37-42). -/
structure DeleteCommand where
  start : Int
  «end» : Int
  deleted_text : Content
  cursor_before : Int
  selection_before : PySel
  window_id : Nat
deriving DecidableEq

/-- `DeleteCommand.__init__` (line 42) captures
`deleted_text = doc.content[start:end]` at construction time. -/
def mkDeleteCommand (content : Content) (start «end» : Int) (cursor_pos : Int)
    (selection : PySel) (window_id : Nat) : DeleteCommand :=
  { start := start, «end» := «end», deleted_text := pySlice content start «end»,
    cursor_before := cursor_pos, selection_before := selection,
    window_id := window_id }

/-- `InsertCommand.execute` (lines 27-31):
`content[:pos] + text + content[pos:]`, cursor moves past the inserted
text, selection becomes `None`.  The new buffer is returned alongside the
`(cursor_after, selection_after)` pair the Python method returns. -/
def InsertCommand.execute (c : InsertCommand) (content : Content) :
    Content × Int × PySel :=
  (pySliceTo content c.pos ++ c.text ++ pySliceFrom content c.pos,
   c.pos + (c.text.length : Int), PySel.pynone)

/-- `InsertCommand.undo` (lines 33-35):
`content[:pos] + content[pos + len(text):]`, returning
`(cursor_before, selection_before)`. -/
def InsertCommand.undo (c : InsertCommand) (content : Content) :
    Content × Int × PySel :=
  (pySliceTo content c.pos ++ pySliceFrom content (c.pos + (c.text.length : Int)),
   c.cursor_before, c.selection_before)

/-- `DeleteCommand.execute` (lines 44-48):
`content[:start] + content[end:]`, cursor at `start`, selection `None`. -/
def DeleteCommand.execute (c : DeleteCommand) (content : Content) :
    Content × Int × PySel :=
  (pySliceTo content c.start ++ pySliceFrom content c.«end»,
   c.start, PySel.pynone)

/-- `DeleteCommand.undo` (lines 50-52):
`content[:start] + deleted_text + content[start:]`, returning
`(cursor_before, selection_before)`. -/
def DeleteCommand.undo (c : DeleteCommand) (content : Content) :
    Content × Int × PySel :=
  (pySliceTo content c.start ++ c.deleted_text ++ pySliceFrom content c.start,
   c.cursor_before, c.selection_before)

/-- The two concrete command classes as a closed sum. -/
inductive Cmd where
  | ins (c : InsertCommand)
  | del (c : DeleteCommand)
deriving DecidableEq

def Cmd.execute : Cmd → Content → Content × Int × PySel
  | .ins c, content => c.execute content
  | .del c, content => c.execute content

def Cmd.undo : Cmd → Content → Content × Int × PySel
  | .ins c, content => c.undo content
  | .del c, content => c.undo content

def Cmd.window_id : Cmd → Nat
  | .ins c => c.window_id
  | .del c => c.window_id

def Cmd.cursor_before : Cmd → Int
  | .ins c => c.cursor_before
  | .del c => c.cursor_before

def Cmd.selection_before : Cmd → PySel
  | .ins c => c.selection_before
  | .del c => c.selection_before

/-- Python's `type(command) == type(last_cmd)` test from
`can_group_with_last` (line 113). -/
def sameKind : Cmd → Cmd → Bool
  | .ins _, .ins _ => true
  | .del _, .del _ => true
  | _, _ => false

/-- The `Document` state (lines 54-67): buffer plus the two history
stacks.  Stacks are stored top-first (Python appends at the end and reads
`undo_stack[-1]`; here the list head is the stack top).  `filename`, the
window registry and `last_command_type` (assigned at line 106, never read)
are omitted; file loading supplies the initial `content`. -/
structure Document where
  content : Content
  undo_stack : List Cmd
  redo_stack : List Cmd
deriving DecidableEq

/-- `Document.can_group_with_last` (lines 109-117): the stack must be
nonempty and the incoming command must have the same type and the same
`window_id` as the stack top. -/
def Document.can_group_with_last (d : Document) (command : Cmd) : Bool :=
  match d.undo_stack with
  | [] => false
  | last_cmd :: _ =>
    sameKind command last_cmd && command.window_id == last_cmd.window_id

/-- The fall-through tail of `Document.execute_command` (lines 103-107):
execute the command, push it as a new undo entry, clear the redo stack. -/
def Document.executePush (d : Document) (command : Cmd) :
    Document × Int × PySel :=
  let r := command.execute d.content
  ({ content := r.1, undo_stack := command :: d.undo_stack,
     redo_stack := [] }, r.2)

/-- `Document.execute_command` (lines 73-107).  When grouping applies, the
stack-top command is extended in place (its `text`, or its
`deleted_text`/`start`/`end`) and the incoming command's forward effect is
executed; otherwise the command is pushed as a new entry.  Every branch
clears the redo stack. -/
def Document.execute_command (d : Document) (command : Cmd) :
    Document × Int × PySel :=
  if d.can_group_with_last command then
    match d.undo_stack, command with
    | Cmd.ins last_cmd :: rest, Cmd.ins c =>
      if c.pos = last_cmd.pos + (last_cmd.text.length : Int) then
        let r := (Cmd.ins c).execute d.content
        ({ content := r.1,
           undo_stack :=
             Cmd.ins { last_cmd with text := last_cmd.text ++ c.text } :: rest,
           redo_stack := [] }, r.2)
      else d.executePush command
    | Cmd.del last_cmd :: rest, Cmd.del c =>
      if c.«end» = last_cmd.start then
        -- Backspace run: extend leftward (lines 86-93)
        let r := (Cmd.del c).execute d.content
        ({ content := r.1,
           undo_stack :=
             Cmd.del { last_cmd with
               deleted_text := c.deleted_text ++ last_cmd.deleted_text,
               start := c.start } :: rest,
           redo_stack := [] }, r.2)
      else if c.start = last_cmd.start then
        -- Delete key run: extend rightward (lines 94-101)
        let r := (Cmd.del c).execute d.content
        ({ content := r.1,
           undo_stack :=
             Cmd.del { last_cmd with
               deleted_text := last_cmd.deleted_text ++ c.deleted_text,
               «end» := c.«end» } :: rest,
           redo_stack := [] }, r.2)
      else d.executePush command
    | _, _ => d.executePush command
  else d.executePush command

/-- Result of `Document.undo`/`Document.redo`: the empty-stack boundary
returns the bare pair `(None, None)` in Python (line 121/129), otherwise
the triple `(cursor, selection, command.window_id)`. -/
inductive UndoResult where
  | empty : UndoResult
  | ok (cursor : Int) (selection : PySel) (window_id : Nat) : UndoResult
deriving DecidableEq

/-- `Document.undo` (lines 119-125).  The `window_id` argument is unused
in the source as well. -/
def Document.undo (d : Document) (window_id : Nat) : Document × UndoResult :=
  match d.undo_stack with
  | [] => (d, UndoResult.empty)
  | command :: rest =>
    let r := command.undo d.content
    ({ content := r.1, undo_stack := rest,
       redo_stack := command :: d.redo_stack },
     UndoResult.ok r.2.1 r.2.2 command.window_id)

/-- `Document.redo` (lines 127-133). -/
def Document.redo (d : Document) (window_id : Nat) : Document × UndoResult :=
  match d.redo_stack with
  | [] => (d, UndoResult.empty)
  | command :: rest =>
    let r := command.execute d.content
    ({ content := r.1, undo_stack := command :: d.undo_stack,
       redo_stack := rest },
     UndoResult.ok r.2.1 r.2.2 command.window_id)

/-! ## Coordinate mapper -/

/-- Python `content.split('\n')`: always returns at least one (possibly
empty) line. -/
def splitNl : Content → List Content
  | [] => [[]]
  | ch :: rest =>
    if ch = '\n' then [] :: splitNl rest
    else
      match splitNl rest with
      | line :: lines => (ch :: line) :: lines
      | [] => [[ch]]

/-- The row-scanning loop of `EditorWindow.get_position_from_index`
(lines 226-231): `row` and `current_pos` are the loop accumulators, and
`fallback` is the value of the final `return` (line 232), reached only
when no row satisfies `current_pos + len(line) >= pos`. -/
def gppAux (pos : Int) (fallback : Int × Int) :
    List Content → Int → Int → Int × Int
  | [], _, _ => fallback
  | line :: rest, row, current_pos =>
    if pos ≤ current_pos + (line.length : Int) then (row + 1, pos - current_pos)
    else gppAux pos fallback rest (row + 1) (current_pos + (line.length : Int) + 1)

/-- `EditorWindow.get_position_from_index` (lines 223-232), with the
shared document's content passed explicitly: convert an absolute offset
to a 1-based `(row, col)` pair. -/
def get_position_from_index (content : Content) (pos : Int) : Int × Int :=
  let lines := splitNl content
  gppAux pos ((lines.length : Int), ((lines.getLastD []).length : Int)) lines 0 0

/-- The `for i in range(row - 1)` accumulation loop of
`EditorWindow.get_index_from_position` (lines 216-218): every iteration
with `i < len(lines)` contributes `len(lines[i]) + 1`. -/
def gifpLoop : Int → List Content → Int
  | _, [] => 0
  | k, line :: rest =>
    if k ≤ 0 then 0 else (line.length : Int) + 1 + gifpLoop (k - 1) rest

/-- Python `lines[i]` with negative-index support (an out-of-range access
would raise `IndexError` in Python and is modelled as `[]`; the source
only evaluates this lookup under the guard `row - 1 < len(lines)`). -/
def pyGetLine (lines : List Content) (i : Int) : Content :=
  if i < 0 then lines.getD ((lines.length : Int) + i).toNat []
  else lines.getD i.toNat []

/-- The offset computation of `EditorWindow.get_index_from_position`
(lines 213-221), taking the `(row, col)` pair that the source parses from
the text-widget index (the screen-coordinate lookup itself is GUI
territory): `pos = sum of full rows above + min(col, len(lines[row-1]))`. -/
def get_index_from_position (content : Content) (row col : Int) : Int :=
  let lines := splitNl content
  gifpLoop (row - 1) lines +
    min col
      (if row - 1 < (lines.length : Int) then
        ((pyGetLine lines (row - 1)).length : Int)
      else 0)

/-! ## View-layer requests and reachable document states -/

/-- A decoded edit intent (spec `InsertRequest{text, at_offset}` /
`DeleteRequest{start, end}`). -/
inductive ReqKind where
  | insertReq (text : Content) (at_offset : Int) : ReqKind
  | deleteReq (start «end» : Int) : ReqKind
deriving DecidableEq

/-- An edit request together with the acting view's cursor/selection
snapshot and identity: exactly the arguments the view layer passes to the
command constructors in `insert_text` / `handle_backspace` /
`handle_delete`. -/
structure Request where
  kind : ReqKind
  cursor : Int
  sel : PySel
  window_id : Nat
deriving DecidableEq

/-- The concrete command a view builds for a request against the current
buffer; for deletions this captures `deleted_text` from the current
content, as `DeleteCommand.__init__` does. -/
def buildCmd (content : Content) (r : Request) : Cmd :=
  match r.kind with
  | .insertReq text at_offset =>
    .ins { text := text, pos := at_offset, cursor_before := r.cursor,
           selection_before := r.sel, window_id := r.window_id }
  | .deleteReq s e =>
    .del (mkDeleteCommand content s e r.cursor r.sel r.window_id)

/-- Bounds-validity of a request against the current buffer, as the spec
demands of the view layer: insertion offsets in `[0, len]`, deletion
ranges `0 <= start <= end <= len`. -/
def ReqValid (content : Content) (r : Request) : Prop :=
  match r.kind with
  | .insertReq _ at_offset => 0 ≤ at_offset ∧ at_offset ≤ (content.length : Int)
  | .deleteReq s e => 0 ≤ s ∧ s ≤ e ∧ e ≤ (content.length : Int)

/-- Apply a sequence of requests to a document, each request's command
built against the buffer as it stands at that request's turn. -/
def applyRequests (d : Document) : List Request → Document
  | [] => d
  | r :: rs => applyRequests (d.execute_command (buildCmd d.content r)).1 rs

/-- Every request of the sequence is bounds-valid at its turn. -/
def SeqValid (d : Document) : List Request → Prop
  | [] => True
  | r :: rs =>
    ReqValid d.content r ∧ SeqValid (d.execute_command (buildCmd d.content r)).1 rs

/-- Call `Document.undo` `n` times, collecting each call's result in
order. -/
def undoTrace (window_id : Nat) : Nat → Document → List UndoResult × Document
  | 0, d => ([], d)
  | n + 1, d =>
    let s := d.undo window_id
    let t := undoTrace window_id n s.1
    (s.2 :: t.1, t.2)

/-- How a view folds a stream of undo results into its cursor/selection
state (`EditorWindow.undo`, lines 404-413): an `ok` result replaces the
state, the empty boundary result leaves it untouched. -/
def applyResults (s : Int × PySel) : List UndoResult → Int × PySel
  | [] => s
  | UndoResult.empty :: rest => applyResults s rest
  | UndoResult.ok cursor selection _ :: rest => applyResults (cursor, selection) rest

/-- Run every stacked command's `undo`, top first, starting from the given
buffer: the buffer `n` undo calls would reach. -/
def undoAll (stack : List Cmd) (content : Content) : Content :=
  match stack with
  | [] => content
  | cmd :: rest => undoAll rest (cmd.undo content).1

/-- Replay every stacked command's forward `execute`, oldest first,
starting from the buffer `c0` (the stack is stored top-first, so the top
is applied last). -/
def replayExec (c0 : Content) : List Cmd → Content
  | [] => c0
  | cmd :: rest => (cmd.execute (replayExec c0 rest)).1

/-- Full validity of a command relative to the buffer it executes against:
in-bounds positions, and (for deletions) a `deleted_text` that matches the
about-to-be-deleted range. -/
def Cmd.ValidOnFull (content : Content) : Cmd → Prop
  | .ins c => 0 ≤ c.pos ∧ c.pos ≤ (content.length : Int)
  | .del c =>
    0 ≤ c.start ∧ c.start ≤ c.«end» ∧ c.«end» ≤ (content.length : Int) ∧
      c.deleted_text = pySlice content c.start c.«end»

/-- Every undo-stack entry is fully valid relative to the replayed buffer
it executes against during a replay from `c0`. -/
def StackValid (c0 : Content) : List Cmd → Prop
  | [] => True
  | cmd :: rest => StackValid c0 rest ∧ cmd.ValidOnFull (replayExec c0 rest)

/-- Every redo-stack entry is fully valid relative to the buffer as it
stands once the entries above it have been re-executed. -/
def RedoValid : List Cmd → Content → Prop
  | [], _ => True
  | cmd :: rest, content =>
    cmd.ValidOnFull content ∧ RedoValid rest (cmd.execute content).1

/-- The incoming command does not trigger the forward-delete
(`Delete`-key) merge branch of `execute_command` (lines 94-101): that
branch fires when the top entry is a same-window delete whose `start`
equals the incoming delete's `start` but not its `end`. -/
def NoForwardDeleteMerge (d : Document) (command : Cmd) : Prop :=
  match d.undo_stack, command with
  | Cmd.del last_cmd :: _, Cmd.del c =>
    c.window_id = last_cmd.window_id →
      c.«end» ≠ last_cmd.start → c.start ≠ last_cmd.start
  | _, _ => True

/-- One observable step of the document engine driven by a bounds-valid
view request (the guard `NoForwardDeleteMerge` excludes the forward-delete
merge branch), or an undo/redo request. -/
inductive DocStep : Document → Document → Prop
  | exec (d : Document) (r : Request) (hv : ReqValid d.content r)
      (hnf : NoForwardDeleteMerge d (buildCmd d.content r)) :
      DocStep d (d.execute_command (buildCmd d.content r)).1
  | undo (d : Document) (w : Nat) : DocStep d (d.undo w).1
  | redo (d : Document) (w : Nat) : DocStep d (d.redo w).1

/-- A freshly loaded document (`Document.__init__`): the given (already
normalized) file content with empty histories. -/
def initialDocument (c0 : Content) : Document :=
  { content := c0, undo_stack := [], redo_stack := [] }

/-- Document states reachable from a freshly loaded document by
bounds-valid edits (without forward-delete merges), undos and redos. -/
def ReachableDoc (c0 : Content) (d : Document) : Prop :=
  Relation.ReflTransGen DocStep (initialDocument c0) d

/-- Geometric sanity of stacked entries: every insert entry has a
nonnegative position (delete entries need no condition here). -/
def GoodStack : List Cmd -> Prop
  | [] => True
  | Cmd.ins c :: rest => 0 <= c.pos /\ GoodStack rest
  | Cmd.del _ :: rest => GoodStack rest

/-- The result `Document.undo` reports when it pops `cmd`. -/
def okOf (cmd : Cmd) : UndoResult :=
  UndoResult.ok cmd.cursor_before cmd.selection_before cmd.window_id

/-- The replay invariant of a document: the undo stack replayed from the
initial content reproduces the current content, every undo entry is fully
valid against the buffer it replays over, and every redo entry is fully
valid against the buffer it would re-execute on. -/
def DocInv (c0 : Content) (d : Document) : Prop :=
  replayExec c0 d.undo_stack = d.content
  /\ StackValid c0 d.undo_stack
  /\ RedoValid d.redo_stack d.content

/-! ## Slice arithmetic -/

theorem pyIdx_eq_toNat {n : Nat} {i : Int} (h0 : 0 ≤ i) (h : i ≤ (n : Int)) :
    pyIdx n i = i.toNat := by
  unfold pyIdx
  rw [if_neg (by omega)]
  exact Nat.min_eq_left (by omega)

theorem pyIdx_of_ge {n : Nat} {i : Int} (h : (n : Int) ≤ i) : pyIdx n i = n := by
  unfold pyIdx
  rw [if_neg (by omega)]
  exact Nat.min_eq_right (by omega)

theorem pySliceTo_eq_take {s : Content} {b : Int} (h0 : 0 ≤ b)
    (h : b ≤ (s.length : Int)) : pySliceTo s b = s.take b.toNat := by
  unfold pySliceTo; rw [pyIdx_eq_toNat h0 h]

theorem pySliceFrom_eq_drop {s : Content} {a : Int} (h0 : 0 ≤ a)
    (h : a ≤ (s.length : Int)) : pySliceFrom s a = s.drop a.toNat := by
  unfold pySliceFrom; rw [pyIdx_eq_toNat h0 h]

theorem pySlice_eq_take_drop {s : Content} {a b : Int} (h0 : 0 ≤ a)
    (ha : a ≤ (s.length : Int)) (hb0 : 0 ≤ b) (hb : b ≤ (s.length : Int)) :
    pySlice s a b = (s.take b.toNat).drop a.toNat := by
  unfold pySlice; rw [pyIdx_eq_toNat h0 ha, pyIdx_eq_toNat hb0 hb]

theorem length_take_of_le {c : Content} {k : Nat} (h : k ≤ c.length) :
    (c.take k).length = k := by
  simp [List.length_take]; omega

/-- Taking `k` from a list whose first `k` elements are `c.take k`. -/
theorem take_app_of_le {c : Content} (rest : Content) {k : Nat}
    (h : k ≤ c.length) : (c.take k ++ rest).take k = c.take k :=
  List.take_left' (length_take_of_le h)

theorem drop_app_of_le {c : Content} (rest : Content) {k : Nat}
    (h : k ≤ c.length) : (c.take k ++ rest).drop k = rest :=
  List.drop_left' (length_take_of_le h)

theorem take_of_take {c : Content} {k m : Nat} (h : k ≤ m) :
    (c.take m).take k = c.take k := by
  rw [List.take_take, Nat.min_eq_left h]

/-- Splicing the two halves of a split at `s` back together, starting the
left half at `s'`. -/
theorem drop_take_drop (l : Content) {s' s : Nat} (h : s' ≤ s) :
    (l.take s).drop s' ++ l.drop s = l.drop s' := by
  conv_rhs => rw [← List.take_append_drop s l]
  rw [List.drop_append_eq_append_drop]
  rcases Nat.le_total s l.length with hs | hs
  · rw [length_take_of_le hs, Nat.sub_eq_zero_of_le (by omega), List.drop_zero]
  · simp [List.take_of_length_le hs, List.drop_eq_nil_of_le hs]

/-- Extending a prefix: `c[:s'] ++ c[s':s] = c[:s]`. -/
theorem take_append_slice (c : Content) {s' s : Nat} (h : s' ≤ s) :
    c.take s' ++ (c.take s).drop s' = c.take s := by
  conv_lhs => rw [← @take_of_take c s' s h]
  exact List.take_append_drop s' (c.take s)

/-! ## Per-command facts -/

theorem insert_execute_content (c : InsertCommand) (content : Content)
    (h0 : 0 ≤ c.pos) (h : c.pos ≤ (content.length : Int)) :
    (c.execute content).1 =
      content.take c.pos.toNat ++ c.text ++ content.drop c.pos.toNat := by
  unfold InsertCommand.execute
  rw [pySliceTo_eq_take h0 h, pySliceFrom_eq_drop h0 h]

theorem delete_execute_content (c : DeleteCommand) (content : Content)
    (h0 : 0 ≤ c.start) (h1 : c.start ≤ c.«end»)
    (h2 : c.«end» ≤ (content.length : Int)) :
    (c.execute content).1 =
      content.take c.start.toNat ++ content.drop c.«end».toNat := by
  unfold DeleteCommand.execute
  rw [pySliceTo_eq_take h0 (by omega), pySliceFrom_eq_drop (by omega) h2]

theorem insert_undo_execute (c : InsertCommand) (content : Content)
    (h0 : 0 ≤ c.pos) (h : c.pos ≤ (content.length : Int)) :
    (c.undo (c.execute content).1).1 = content := by
  have hk : c.pos.toNat ≤ content.length := by omega
  rw [insert_execute_content c content h0 h]
  unfold InsertCommand.undo
  have hlen : (content.take c.pos.toNat ++ c.text ++ content.drop c.pos.toNat).length
      = content.length + c.text.length := by
    simp [length_take_of_le hk]; omega
  rw [pySliceTo_eq_take h0 (by rw [hlen]; omega),
      pySliceFrom_eq_drop (by omega) (by rw [hlen]; push_cast; omega)]
  have ht : (c.pos + (c.text.length : Int)).toNat = c.pos.toNat + c.text.length := by
    omega
  rw [ht, List.append_assoc,
      take_app_of_le (c.text ++ content.drop c.pos.toNat) hk,
      ← List.append_assoc,
      List.drop_left' (show (content.take c.pos.toNat ++ c.text).length = _ by
        simp [length_take_of_le hk]),
      List.take_append_drop]

theorem delete_undo_execute (c : DeleteCommand) (content : Content)
    (h0 : 0 ≤ c.start) (h1 : c.start ≤ c.«end»)
    (h2 : c.«end» ≤ (content.length : Int))
    (hd : c.deleted_text = pySlice content c.start c.«end») :
    (c.undo (c.execute content).1).1 = content := by
  have hs : c.start.toNat ≤ content.length := by omega
  have he : c.«end».toNat ≤ content.length := by omega
  rw [delete_execute_content c content h0 h1 h2]
  unfold DeleteCommand.undo
  have hlen : (content.take c.start.toNat ++ content.drop c.«end».toNat).length
      = c.start.toNat + (content.length - c.«end».toNat) := by
    simp [length_take_of_le hs]
  rw [pySliceTo_eq_take h0 (by rw [hlen]; omega),
      pySliceFrom_eq_drop h0 (by rw [hlen]; omega),
      take_app_of_le (content.drop c.«end».toNat) hs,
      drop_app_of_le (content.drop c.«end».toNat) hs,
      hd, pySlice_eq_take_drop h0 (by omega) (by omega) h2,
      take_append_slice content (by omega), List.take_append_drop]

theorem cmd_undo_execute (cmd : Cmd) (content : Content)
    (h : cmd.ValidOnFull content) : (cmd.undo (cmd.execute content).1).1 = content := by
  cases cmd with
  | ins c =>
    obtain ⟨h0, h1⟩ := h
    exact insert_undo_execute c content h0 h1
  | del c =>
    obtain ⟨h0, h1, h2, hd⟩ := h
    exact delete_undo_execute c content h0 h1 h2 hd

theorem cmd_undo_meta (cmd : Cmd) (content : Content) :
    (cmd.undo content).2 = (cmd.cursor_before, cmd.selection_before) := by
  cases cmd <;> rfl

/-! ## Merge algebra: how an in-place merged entry relates to the two
commands it replaces -/

theorem insert_merge_undo (top c : InsertCommand) (content : Content)
    (hpos : c.pos = top.pos + (top.text.length : Int))
    (h0 : 0 ≤ top.pos) (hc1 : c.pos ≤ (content.length : Int)) :
    (({ top with text := top.text ++ c.text } : InsertCommand).undo
        (c.execute content).1).1 = (top.undo content).1 := by
  have hc0 : 0 ≤ c.pos := by omega
  have hk : top.pos.toNat ≤ content.length := by omega
  have hk' : c.pos.toNat ≤ content.length := by omega
  have hkk : top.pos.toNat ≤ c.pos.toNat := by omega
  rw [insert_execute_content c content hc0 hc1]
  unfold InsertCommand.undo
  have hlen : (content.take c.pos.toNat ++ c.text ++ content.drop c.pos.toNat).length
      = content.length + c.text.length := by
    simp [length_take_of_le hk']; omega
  rw [pySliceTo_eq_take (show (0:Int) ≤ top.pos from h0) (by rw [hlen]; omega)]
  rw [pySliceFrom_eq_drop (by simp; omega) (by rw [hlen]; simp; omega)]
  have ht : (top.pos + ((top.text ++ c.text).length : Int)).toNat
      = c.pos.toNat + c.text.length := by simp; omega
  rw [ht]
  rw [List.append_assoc, List.take_append_of_le_length (by rw [length_take_of_le hk']; omega),
      take_of_take hkk, ← List.append_assoc,
      List.drop_left' (show (content.take c.pos.toNat ++ c.text).length = _ by
        simp [length_take_of_le hk']),
      pySliceTo_eq_take h0 (by omega),
      pySliceFrom_eq_drop (by omega) (by omega)]
  have : (top.pos + (top.text.length : Int)).toNat = c.pos.toNat := by omega
  rw [this]

theorem backspace_merge_undo (top : DeleteCommand) (content : Content)
    (s' cur : Int) (sel : PySel) (w : Nat)
    (h0 : 0 ≤ s') (h1 : s' ≤ top.start) (h2 : top.start ≤ (content.length : Int)) :
    (({ top with
        start := s'
        deleted_text :=
          (mkDeleteCommand content s' top.start cur sel w).deleted_text
            ++ top.deleted_text } : DeleteCommand).undo
      ((mkDeleteCommand content s' top.start cur sel w).execute content).1).1
      = (top.undo content).1 := by
  have hs' : s'.toNat ≤ content.length := by omega
  have hs : top.start.toNat ≤ content.length := by omega
  have hexec : ((mkDeleteCommand content s' top.start cur sel w).execute content).1
      = content.take s'.toNat ++ content.drop top.start.toNat :=
    delete_execute_content _ content h0 h1 h2
  rw [hexec]
  unfold DeleteCommand.undo
  have hlen : (content.take s'.toNat ++ content.drop top.start.toNat).length
      = s'.toNat + (content.length - top.start.toNat) := by
    simp [length_take_of_le hs']
  show (content.take s'.toNat ++ content.drop top.start.toNat).take
        (pyIdx (content.take s'.toNat ++ content.drop top.start.toNat).length s')
      ++ (pySlice content s' top.start ++ top.deleted_text)
      ++ (content.take s'.toNat ++ content.drop top.start.toNat).drop
        (pyIdx (content.take s'.toNat ++ content.drop top.start.toNat).length s')
      = (top.undo content).1
  rw [pyIdx_eq_toNat h0 (by rw [hlen]; omega),
      take_app_of_le (content.drop top.start.toNat) hs',
      drop_app_of_le (content.drop top.start.toNat) hs']
  unfold DeleteCommand.undo
  rw [pySlice_eq_take_drop h0 (by omega) (by omega) h2,
      pySliceTo_eq_take (by omega) h2, pySliceFrom_eq_drop (by omega) h2,
      ← List.append_assoc, take_append_slice content (by omega)]

theorem forward_merge_undo (top : DeleteCommand) (content : Content)
    (e2 cur : Int) (sel : PySel) (w : Nat)
    (h0 : 0 ≤ top.start) (h1 : top.start ≤ e2) (h2 : e2 ≤ (content.length : Int)) :
    (({ top with
        «end» := e2
        deleted_text := top.deleted_text
          ++ (mkDeleteCommand content top.start e2 cur sel w).deleted_text } :
          DeleteCommand).undo
      ((mkDeleteCommand content top.start e2 cur sel w).execute content).1).1
      = (top.undo content).1 := by
  have hs : top.start.toNat ≤ content.length := by omega
  have he : e2.toNat ≤ content.length := by omega
  have hexec : ((mkDeleteCommand content top.start e2 cur sel w).execute content).1
      = content.take top.start.toNat ++ content.drop e2.toNat :=
    delete_execute_content _ content h0 h1 h2
  rw [hexec]
  unfold DeleteCommand.undo
  have hlen : (content.take top.start.toNat ++ content.drop e2.toNat).length
      = top.start.toNat + (content.length - e2.toNat) := by
    simp [length_take_of_le hs]
  show (content.take top.start.toNat ++ content.drop e2.toNat).take
        (pyIdx (content.take top.start.toNat ++ content.drop e2.toNat).length top.start)
      ++ (top.deleted_text ++ pySlice content top.start e2)
      ++ (content.take top.start.toNat ++ content.drop e2.toNat).drop
        (pyIdx (content.take top.start.toNat ++ content.drop e2.toNat).length top.start)
      = (top.undo content).1
  rw [pyIdx_eq_toNat h0 (by rw [hlen]; omega),
      take_app_of_le (content.drop e2.toNat) hs,
      drop_app_of_le (content.drop e2.toNat) hs]
  unfold DeleteCommand.undo
  rw [pySlice_eq_take_drop h0 (by omega) (by omega) h2,
      pySliceTo_eq_take h0 (by omega), pySliceFrom_eq_drop h0 (by omega),
      List.append_assoc, List.append_assoc, drop_take_drop content (by omega),
      ← List.append_assoc]

theorem insert_merge_exec (top c : InsertCommand) (b : Content)
    (hpos : c.pos = top.pos + (top.text.length : Int))
    (h0 : 0 ≤ top.pos) (h1 : top.pos ≤ (b.length : Int)) :
    (c.execute (top.execute b).1).1
      = (({ top with text := top.text ++ c.text } : InsertCommand).execute b).1 := by
  have hk : top.pos.toNat ≤ b.length := by omega
  rw [insert_execute_content top b h0 h1]
  have hlen : (b.take top.pos.toNat ++ top.text ++ b.drop top.pos.toNat).length
      = b.length + top.text.length := by
    simp [length_take_of_le hk]; omega
  rw [insert_execute_content c _ (by omega) (by rw [hlen]; omega),
      insert_execute_content
        ({ top with text := top.text ++ c.text } : InsertCommand) b h0 h1]
  show (b.take top.pos.toNat ++ top.text ++ b.drop top.pos.toNat).take c.pos.toNat
      ++ c.text
      ++ (b.take top.pos.toNat ++ top.text ++ b.drop top.pos.toNat).drop c.pos.toNat
      = b.take top.pos.toNat ++ (top.text ++ c.text) ++ b.drop top.pos.toNat
  rw [List.take_left' (show (b.take top.pos.toNat ++ top.text).length = _ by
        simp [length_take_of_le hk]; omega),
      List.drop_left' (show (b.take top.pos.toNat ++ top.text).length = _ by
        simp [length_take_of_le hk]; omega)]
  simp

theorem backspace_merge_exec (top : DeleteCommand) (b : Content)
    (s' cur : Int) (sel : PySel) (w : Nat)
    (ht0 : 0 ≤ top.start) (ht1 : top.start ≤ top.«end»)
    (ht2 : top.«end» ≤ (b.length : Int)) (h0 : 0 ≤ s') (h1 : s' ≤ top.start) :
    ((mkDeleteCommand (top.execute b).1 s' top.start cur sel w).execute
        (top.execute b).1).1
      = b.take s'.toNat ++ b.drop top.«end».toNat := by
  have hs : top.start.toNat ≤ b.length := by omega
  have he : top.«end».toNat ≤ b.length := by omega
  rw [delete_execute_content top b ht0 ht1 ht2]
  have hlen : (b.take top.start.toNat ++ b.drop top.«end».toNat).length
      = top.start.toNat + (b.length - top.«end».toNat) := by
    simp [length_take_of_le hs]
  rw [delete_execute_content _ _ h0 h1
        (by show top.start ≤ _; rw [hlen]; omega)]
  show (b.take top.start.toNat ++ b.drop top.«end».toNat).take s'.toNat
      ++ (b.take top.start.toNat ++ b.drop top.«end».toNat).drop top.start.toNat
      = b.take s'.toNat ++ b.drop top.«end».toNat
  rw [List.take_append_of_le_length (by rw [length_take_of_le hs]; omega),
      take_of_take (by omega), drop_app_of_le (b.drop top.«end».toNat) hs]

theorem backspace_merge_deleted (top : DeleteCommand) (b : Content)
    (s' cur : Int) (sel : PySel) (w : Nat)
    (ht0 : 0 ≤ top.start) (ht1 : top.start ≤ top.«end»)
    (ht2 : top.«end» ≤ (b.length : Int)) (h0 : 0 ≤ s') (h1 : s' ≤ top.start)
    (hdt : top.deleted_text = pySlice b top.start top.«end») :
    (mkDeleteCommand (top.execute b).1 s' top.start cur sel w).deleted_text
        ++ top.deleted_text
      = pySlice b s' top.«end» := by
  have hs : top.start.toNat ≤ b.length := by omega
  have he : top.«end».toNat ≤ b.length := by omega
  rw [delete_execute_content top b ht0 ht1 ht2]
  have hlen : (b.take top.start.toNat ++ b.drop top.«end».toNat).length
      = top.start.toNat + (b.length - top.«end».toNat) := by
    simp [length_take_of_le hs]
  show pySlice (b.take top.start.toNat ++ b.drop top.«end».toNat) s' top.start
      ++ top.deleted_text = pySlice b s' top.«end»
  rw [pySlice_eq_take_drop h0 (by rw [hlen]; omega) (by omega) (by rw [hlen]; omega),
      take_app_of_le (b.drop top.«end».toNat) hs, hdt,
      pySlice_eq_take_drop ht0 (by omega) (by omega) ht2,
      pySlice_eq_take_drop h0 (by omega) (by omega) ht2,
      ← @take_of_take b top.start.toNat top.«end».toNat (by omega),
      drop_take_drop (b.take top.«end».toNat) (by omega)]

/-- Case analysis for `Document.execute_command`: either the command is
pushed as a new entry, or exactly one of the three merge branches fires,
with the branch conditions recorded. -/
theorem execute_command_eq (d : Document) (command : Cmd) :
    (d.execute_command command = d.executePush command)
    ∨ (∃ last_cmd rest c,
        d.undo_stack = Cmd.ins last_cmd :: rest ∧ command = Cmd.ins c
        ∧ c.window_id = last_cmd.window_id
        ∧ c.pos = last_cmd.pos + (last_cmd.text.length : Int)
        ∧ d.execute_command command =
            ({ content := ((Cmd.ins c).execute d.content).1, undo_stack := Cmd.ins { last_cmd with text := last_cmd.text ++ c.text } :: rest, redo_stack := [] }, ((Cmd.ins c).execute d.content).2))
    ∨ (∃ last_cmd rest c,
        d.undo_stack = Cmd.del last_cmd :: rest ∧ command = Cmd.del c
        ∧ c.window_id = last_cmd.window_id
        ∧ c.«end» = last_cmd.start
        ∧ d.execute_command command =
            ({ content := ((Cmd.del c).execute d.content).1, undo_stack := Cmd.del { last_cmd with start := c.start, deleted_text := c.deleted_text ++ last_cmd.deleted_text } :: rest, redo_stack := [] }, ((Cmd.del c).execute d.content).2))
    ∨ (∃ last_cmd rest c,
        d.undo_stack = Cmd.del last_cmd :: rest ∧ command = Cmd.del c
        ∧ c.window_id = last_cmd.window_id
        ∧ c.«end» ≠ last_cmd.start ∧ c.start = last_cmd.start
        ∧ d.execute_command command =
            ({ content := ((Cmd.del c).execute d.content).1, undo_stack := Cmd.del { last_cmd with «end» := c.«end», deleted_text := last_cmd.deleted_text ++ c.deleted_text } :: rest, redo_stack := [] }, ((Cmd.del c).execute d.content).2)) := by
  cases hgb : d.can_group_with_last command with
  | false =>
    left
    simp [Document.execute_command, hgb]
  | true =>
    cases hs : d.undo_stack with
    | nil => simp [Document.can_group_with_last, hs] at hgb
    | cons last rest =>
      cases command with
      | ins c =>
        cases last with
        | ins lastc =>
          have hw : c.window_id = lastc.window_id := by
            simpa [Document.can_group_with_last, hs, sameKind, Cmd.window_id]
              using hgb
          by_cases hp : c.pos = lastc.pos + (lastc.text.length : Int)
          · right; left
            refine ⟨lastc, rest, c, rfl, rfl, hw, hp, ?_⟩
            simp [Document.execute_command, hgb, hs, hp]
          · left
            simp [Document.execute_command, hgb, hs, hp]
        | del lastc =>
          simp [Document.can_group_with_last, hs, sameKind] at hgb
      | del c =>
        cases last with
        | ins lastc =>
          simp [Document.can_group_with_last, hs, sameKind] at hgb
        | del lastc =>
          have hw : c.window_id = lastc.window_id := by
            simpa [Document.can_group_with_last, hs, sameKind, Cmd.window_id]
              using hgb
          by_cases he : c.«end» = lastc.start
          · right; right; left
            refine ⟨lastc, rest, c, rfl, rfl, hw, he, ?_⟩
            simp [Document.execute_command, hgb, hs, he]
          · by_cases hst : c.start = lastc.start
            · right; right; right
              refine ⟨lastc, rest, c, rfl, rfl, hw, he, hst, ?_⟩
              simp [Document.execute_command, hgb, hs, he, hst]
            · left
              simp [Document.execute_command, hgb, hs, he, hst]

/-! ## Easy stack facts -/

theorem execute_command_redo_stack (d : Document) (command : Cmd) :
    (d.execute_command command).1.redo_stack = [] := by
  rcases execute_command_eq d command with h | ⟨l, rest, c, _, _, _, _, h⟩
    | ⟨l, rest, c, _, _, _, _, h⟩ | ⟨l, rest, c, _, _, _, _, _, h⟩ <;>
    simp [h, Document.executePush]

/-- C3: after any call to `Document.execute_command` (merged or pushed),
the redo stack is empty, and a subsequent redo call reports the
empty-history boundary result and leaves the document unchanged. -/
theorem C3_execute_clears_redo (d : Document) (command : Cmd) (w : Nat) :
    (d.execute_command command).1.redo_stack = []
    ∧ (d.execute_command command).1.redo w
        = ((d.execute_command command).1, UndoResult.empty) := by
  have h := execute_command_redo_stack d command
  exact ⟨h, by simp [Document.redo, h]⟩

/-- C6: undo with an empty undo stack, and redo with an empty redo stack,
return the empty boundary result and leave the document (content and both
stacks) completely unchanged. -/
theorem C6_empty_history_boundary (d : Document) (w : Nat) :
    (d.undo_stack = [] → d.undo w = (d, UndoResult.empty))
    ∧ (d.redo_stack = [] → d.redo w = (d, UndoResult.empty)) := by
  constructor
  · intro h; simp [Document.undo, h]
  · intro h; simp [Document.redo, h]

/-- Witness for C6 at a concrete document. -/
theorem C6_empty_history_boundary_witness :
    (⟨['a'], [], []⟩ : Document).undo 0 = (⟨['a'], [], []⟩, UndoResult.empty)
    ∧ (⟨['a'], [], []⟩ : Document).redo 0 = (⟨['a'], [], []⟩, UndoResult.empty) :=
  ⟨(C6_empty_history_boundary ⟨['a'], [], []⟩ 0).1 rfl,
   (C6_empty_history_boundary ⟨['a'], [], []⟩ 0).2 rfl⟩

/-- C10: every forward execution of a command reports a `None` selection,
and in particular a redo (which re-runs `execute`) reports a `None`
selection even though the preceding undo restored `selection_before`. -/
theorem C10_forward_execution_selection_none (cmd : Cmd) (content : Content)
    (d : Document) (w : Nat) (c0 : Cmd) (rest : List Cmd) :
    (cmd.execute content).2.2 = PySel.pynone
    ∧ (d.redo_stack = c0 :: rest →
        (d.redo w).2
          = UndoResult.ok (c0.execute d.content).2.1 PySel.pynone c0.window_id) := by
  constructor
  · cases cmd <;> rfl
  · intro h
    simp only [Document.redo, h]
    cases c0 <;> rfl

/-- Witness for C10: a concrete forward execution and a concrete redo
after a state whose redo-stack entry carries a non-`None`
`selection_before`. -/
theorem C10_forward_execution_selection_none_witness :
    ((Cmd.ins ⟨['x'], 0, 0, PySel.pynone, 0⟩).execute []).2.2 = PySel.pynone
    ∧ ((⟨['a'], [], [Cmd.ins ⟨['b'], 1, 7, PySel.pair (some 1) (some 2), 3⟩]⟩ :
          Document).redo 0).2
        = UndoResult.ok
            ((Cmd.ins ⟨['b'], 1, 7, PySel.pair (some 1) (some 2), 3⟩).execute
              ['a']).2.1
            PySel.pynone 3 :=
  ⟨(C10_forward_execution_selection_none (Cmd.ins ⟨['x'], 0, 0, PySel.pynone, 0⟩)
      [] ⟨['a'], [], []⟩ 0 (Cmd.ins ⟨['b'], 1, 7, PySel.pair (some 1) (some 2), 3⟩)
      []).1,
   (C10_forward_execution_selection_none (Cmd.ins ⟨['x'], 0, 0, PySel.pynone, 0⟩)
      [] ⟨['a'], [], [Cmd.ins ⟨['b'], 1, 7, PySel.pair (some 1) (some 2), 3⟩]⟩ 0
      (Cmd.ins ⟨['b'], 1, 7, PySel.pair (some 1) (some 2), 3⟩) []).2 rfl⟩

/-- C5: a delete from the same view whose `end` equals the top delete's
`start` (repeated backspace) merges into the single top entry; the merged
entry keeps `end`, moves `start` to the new command's `start`, and its
`deleted_text` is the new command's deleted text prepended to the top's
(original left-to-right buffer order). -/
theorem C5_backspace_run_merges (d : Document) (top : DeleteCommand)
    (rest : List Cmd) (s' cur : Int) (sel : PySel)
    (hs : d.undo_stack = Cmd.del top :: rest) :
    (d.execute_command
        (Cmd.del (mkDeleteCommand d.content s' top.start cur sel
          top.window_id))).1.undo_stack
      = Cmd.del { top with
          start := s'
          deleted_text := pySlice d.content s' top.start ++ top.deleted_text }
        :: rest
    ∧ (d.execute_command
        (Cmd.del (mkDeleteCommand d.content s' top.start cur sel
          top.window_id))).1.content
      = pySliceTo d.content s' ++ pySliceFrom d.content top.start := by
  have hg : d.can_group_with_last
      (Cmd.del (mkDeleteCommand d.content s' top.start cur sel top.window_id))
      = true := by
    simp [Document.can_group_with_last, hs, sameKind, Cmd.window_id,
      mkDeleteCommand]
  have hck : (mkDeleteCommand d.content s' top.start cur sel
      top.window_id).«end» = top.start := rfl
  have hst : (mkDeleteCommand d.content s' top.start cur sel
      top.window_id).start = s' := rfl
  have hdt : (mkDeleteCommand d.content s' top.start cur sel
      top.window_id).deleted_text = pySlice d.content s' top.start := rfl
  constructor <;>
    simp [Document.execute_command, hg, hs, hck, hst, hdt, Cmd.execute,
      DeleteCommand.execute]

/-- Witness for C5: backspacing `'c'` then `'b'` out of `"abc"` yields one
merged entry deleting `"bc"`. -/
theorem C5_backspace_run_merges_witness :
    ((⟨['a', 'b'], [Cmd.del ⟨2, 3, ['c'], 3, PySel.pynone, 0⟩], []⟩ :
        Document).execute_command
        (Cmd.del (mkDeleteCommand ['a', 'b'] 1 2 2 PySel.pynone 0))).1.undo_stack
      = [Cmd.del ⟨1, 3, ['b', 'c'], 3, PySel.pynone, 0⟩]
    ∧ ((⟨['a', 'b'], [Cmd.del ⟨2, 3, ['c'], 3, PySel.pynone, 0⟩], []⟩ :
        Document).execute_command
        (Cmd.del (mkDeleteCommand ['a', 'b'] 1 2 2 PySel.pynone 0))).1.content
      = ['a'] := by
  have h := C5_backspace_run_merges
    ⟨['a', 'b'], [Cmd.del ⟨2, 3, ['c'], 3, PySel.pynone, 0⟩], []⟩
    ⟨2, 3, ['c'], 3, PySel.pynone, 0⟩ [] 1 2 PySel.pynone rfl
  exact ⟨h.1.trans (by decide), h.2.trans (by decide)⟩

/-- C2: three single-character insertions `"a"`, `"b"`, `"c"` from the
same view at sequentially adjacent offsets, recorded on a document with no
prior undo history, produce exactly one undo-stack entry with text
`"abc"`, and a single undo removes all three characters at once. -/
theorem C2_grouping_determinism (content : Content) (redo0 : List Cmd)
    (p cu1 cu2 cu3 : Int) (se1 se2 se3 : PySel) (w : Nat)
    (h0 : 0 ≤ p) (h1 : p ≤ (content.length : Int)) :
    ((((⟨content, [], redo0⟩ : Document).execute_command
          (Cmd.ins ⟨['a'], p, cu1, se1, w⟩)).1.execute_command
          (Cmd.ins ⟨['b'], p + 1, cu2, se2, w⟩)).1.execute_command
          (Cmd.ins ⟨['c'], p + 2, cu3, se3, w⟩)).1.undo_stack
      = [Cmd.ins ⟨['a', 'b', 'c'], p, cu1, se1, w⟩]
    ∧ (((((⟨content, [], redo0⟩ : Document).execute_command
          (Cmd.ins ⟨['a'], p, cu1, se1, w⟩)).1.execute_command
          (Cmd.ins ⟨['b'], p + 1, cu2, se2, w⟩)).1.execute_command
          (Cmd.ins ⟨['c'], p + 2, cu3, se3, w⟩)).1.undo w).1.content
      = content := by
  have e1 : ((⟨content, [], redo0⟩ : Document).execute_command
      (Cmd.ins ⟨['a'], p, cu1, se1, w⟩)).1
      = ⟨((⟨['a'], p, cu1, se1, w⟩ : InsertCommand).execute content).1,
         [Cmd.ins ⟨['a'], p, cu1, se1, w⟩], []⟩ := rfl
  rw [e1]
  have hg2 : (⟨((⟨['a'], p, cu1, se1, w⟩ : InsertCommand).execute content).1,
      [Cmd.ins ⟨['a'], p, cu1, se1, w⟩], []⟩ : Document).can_group_with_last
      (Cmd.ins ⟨['b'], p + 1, cu2, se2, w⟩) = true := by
    simp [Document.can_group_with_last, sameKind, Cmd.window_id]
  have e2 : ((⟨((⟨['a'], p, cu1, se1, w⟩ : InsertCommand).execute content).1,
      [Cmd.ins ⟨['a'], p, cu1, se1, w⟩], []⟩ : Document).execute_command
      (Cmd.ins ⟨['b'], p + 1, cu2, se2, w⟩)).1
      = ⟨((⟨['b'], p + 1, cu2, se2, w⟩ : InsertCommand).execute
            (((⟨['a'], p, cu1, se1, w⟩ : InsertCommand).execute content).1)).1,
         [Cmd.ins ⟨['a', 'b'], p, cu1, se1, w⟩], []⟩ := by
    simp [Document.execute_command, hg2, Cmd.execute]
  rw [e2]
  have hc2 : ((⟨['b'], p + 1, cu2, se2, w⟩ : InsertCommand).execute
        (((⟨['a'], p, cu1, se1, w⟩ : InsertCommand).execute content).1)).1
      = ((⟨['a', 'b'], p, cu1, se1, w⟩ : InsertCommand).execute content).1 :=
    insert_merge_exec ⟨['a'], p, cu1, se1, w⟩ ⟨['b'], p + 1, cu2, se2, w⟩
      content rfl h0 h1
  rw [hc2]
  have hg3 : (⟨((⟨['a', 'b'], p, cu1, se1, w⟩ : InsertCommand).execute content).1,
      [Cmd.ins ⟨['a', 'b'], p, cu1, se1, w⟩], []⟩ : Document).can_group_with_last
      (Cmd.ins ⟨['c'], p + 2, cu3, se3, w⟩) = true := by
    simp [Document.can_group_with_last, sameKind, Cmd.window_id]
  have e3 : ((⟨((⟨['a', 'b'], p, cu1, se1, w⟩ : InsertCommand).execute content).1,
      [Cmd.ins ⟨['a', 'b'], p, cu1, se1, w⟩], []⟩ : Document).execute_command
      (Cmd.ins ⟨['c'], p + 2, cu3, se3, w⟩)).1
      = ⟨((⟨['c'], p + 2, cu3, se3, w⟩ : InsertCommand).execute
            (((⟨['a', 'b'], p, cu1, se1, w⟩ : InsertCommand).execute content).1)).1,
         [Cmd.ins ⟨['a', 'b', 'c'], p, cu1, se1, w⟩], []⟩ := by
    simp [Document.execute_command, hg3, Cmd.execute]
  rw [e3]
  have hc3 : ((⟨['c'], p + 2, cu3, se3, w⟩ : InsertCommand).execute
        (((⟨['a', 'b'], p, cu1, se1, w⟩ : InsertCommand).execute content).1)).1
      = ((⟨['a', 'b', 'c'], p, cu1, se1, w⟩ : InsertCommand).execute content).1 :=
    insert_merge_exec ⟨['a', 'b'], p, cu1, se1, w⟩ ⟨['c'], p + 2, cu3, se3, w⟩
      content rfl h0 h1
  rw [hc3]
  refine ⟨rfl, ?_⟩
  show ((Cmd.ins ⟨['a', 'b', 'c'], p, cu1, se1, w⟩).undo
      (((⟨['a', 'b', 'c'], p, cu1, se1, w⟩ : InsertCommand).execute content).1)).1
      = content
  exact insert_undo_execute ⟨['a', 'b', 'c'], p, cu1, se1, w⟩ content h0 h1

/-! ## Undo correctness through `execute_command` -/

theorem buildCmd_ValidOnFull (content : Content) (r : Request)
    (hv : ReqValid content r) : (buildCmd content r).ValidOnFull content := by
  obtain ⟨kind, rcur, rsel, rwid⟩ := r
  cases kind with
  | insertReq text off => exact ⟨hv.1, hv.2⟩
  | deleteReq s e => exact ⟨hv.1, hv.2.1, hv.2.2, rfl⟩

theorem GoodStack_cons_buildCmd (content : Content) (r : Request)
    (stack : List Cmd) (hv : ReqValid content r) (h : GoodStack stack) :
    GoodStack (buildCmd content r :: stack) := by
  obtain ⟨kind, rcur, rsel, rwid⟩ := r
  cases kind with
  | insertReq text off => exact ⟨hv.1, h⟩
  | deleteReq s e => exact h

theorem undoAll_cons (cmd : Cmd) (rest : List Cmd) (c : Content) :
    undoAll (cmd :: rest) c = undoAll rest (cmd.undo c).1 := rfl

theorem getLast?_okOf_cons (cmd : Cmd) (stack : List Cmd) :
    ((cmd :: stack).getLast?).map okOf
      = match stack.getLast? with
        | none => some (okOf cmd)
        | some c0 => some (okOf c0) := by
  cases stack with
  | nil => rfl
  | cons x xs =>
    rw [List.getLast?_cons_cons]
    cases h : (x :: xs).getLast? with
    | none => simp [List.getLast?_eq_none_iff] at h
    | some c0 => rfl

theorem match_getLast?_cons (x : Cmd) (stack : List Cmd) (dflt : UndoResult) :
    (match (x :: stack).getLast? with
     | none => some dflt
     | some c0 => some (okOf c0))
    = ((x :: stack).getLast?).map okOf := by
  cases h : (x :: stack).getLast? with
  | none => simp [List.getLast?_eq_none_iff] at h
  | some c0 => rfl

/-- Effect of one `execute_command` call on the derived undo chain: the
full-undo result is preserved, the stack stays geometrically sane, gains
at most one entry, becomes nonempty, and its bottom entry's reported undo
result is unchanged (or is the new command's, if the stack was empty). -/
theorem execute_command_undoAll (d : Document) (r : Request)
    (hv : ReqValid d.content r) (hg : GoodStack d.undo_stack) :
    undoAll (d.execute_command (buildCmd d.content r)).1.undo_stack
        (d.execute_command (buildCmd d.content r)).1.content
      = undoAll d.undo_stack d.content
    ∧ GoodStack (d.execute_command (buildCmd d.content r)).1.undo_stack
    ∧ (d.execute_command (buildCmd d.content r)).1.undo_stack ≠ []
    ∧ (d.execute_command (buildCmd d.content r)).1.undo_stack.length
        ≤ d.undo_stack.length + 1
    ∧ ((d.execute_command (buildCmd d.content r)).1.undo_stack.getLast?).map okOf
        = (match d.undo_stack.getLast? with
           | none => some (okOf (buildCmd d.content r))
           | some c0 => some (okOf c0)) := by
  rcases execute_command_eq d (buildCmd d.content r) with h
    | ⟨last_cmd, rest, c, hstack, hcmd, hw, hp, h⟩
    | ⟨last_cmd, rest, c, hstack, hcmd, hw, he, h⟩
    | ⟨last_cmd, rest, c, hstack, hcmd, hw, hne, hst, h⟩
  · -- pushed as a new entry
    rw [h]
    refine ⟨?_, GoodStack_cons_buildCmd d.content r d.undo_stack hv hg,
      by simp [Document.executePush], by simp [Document.executePush], ?_⟩
    · show undoAll (buildCmd d.content r :: d.undo_stack)
          ((buildCmd d.content r).execute d.content).1 = _
      rw [undoAll_cons,
        cmd_undo_execute _ _ (buildCmd_ValidOnFull d.content r hv)]
    · show ((buildCmd d.content r :: d.undo_stack).getLast?).map okOf = _
      rw [getLast?_okOf_cons]
  · -- insert merge
    obtain ⟨kind, rcur, rsel, rwid⟩ := r
    cases kind with
    | deleteReq s e => exact Cmd.noConfusion hcmd
    | insertReq text off =>
      injection hcmd with hinj
      subst hinj
      rw [hstack] at hg
      have hg' : 0 ≤ last_cmd.pos ∧ GoodStack rest := hg
      obtain ⟨hlast0, hgrest⟩ := hg'
      rw [h, hstack]
      refine ⟨?_, ⟨hlast0, hgrest⟩, by simp, by simp, ?_⟩
      · rw [undoAll_cons, undoAll_cons]
        exact congrArg (undoAll rest)
          (insert_merge_undo last_cmd ⟨text, off, rcur, rsel, rwid⟩ d.content hp
            hlast0 hv.2)
      · rw [match_getLast?_cons, getLast?_okOf_cons, getLast?_okOf_cons]
        cases rest.getLast? <;> rfl
  · -- backspace merge
    obtain ⟨kind, rcur, rsel, rwid⟩ := r
    cases kind with
    | insertReq text off => exact Cmd.noConfusion hcmd
    | deleteReq s e =>
      injection hcmd with hinj
      have hes : e = last_cmd.start := by
        have h2 := congrArg DeleteCommand.«end» hinj
        exact h2.trans he
      subst hes
      subst hinj
      rw [hstack] at hg
      have hgrest : GoodStack rest := hg
      rw [h, hstack]
      refine ⟨?_, hgrest, by simp, by simp, ?_⟩
      · rw [undoAll_cons, undoAll_cons]
        exact congrArg (undoAll rest)
          (backspace_merge_undo last_cmd d.content s rcur rsel rwid hv.1 hv.2.1
            hv.2.2)
      · rw [match_getLast?_cons, getLast?_okOf_cons, getLast?_okOf_cons]
        cases rest.getLast? <;> rfl
  · -- forward-delete merge
    obtain ⟨kind, rcur, rsel, rwid⟩ := r
    cases kind with
    | insertReq text off => exact Cmd.noConfusion hcmd
    | deleteReq s e =>
      injection hcmd with hinj
      have hss : s = last_cmd.start := by
        have h2 := congrArg DeleteCommand.start hinj
        exact h2.trans hst
      subst hss
      subst hinj
      rw [hstack] at hg
      have hgrest : GoodStack rest := hg
      rw [h, hstack]
      refine ⟨?_, hgrest, by simp, by simp, ?_⟩
      · rw [undoAll_cons, undoAll_cons]
        exact congrArg (undoAll rest)
          (forward_merge_undo last_cmd d.content e rcur rsel rwid hv.1 hv.2.1
            hv.2.2)
      · rw [match_getLast?_cons, getLast?_okOf_cons, getLast?_okOf_cons]
        cases rest.getLast? <;> rfl

/-- The undo chain across a whole valid request sequence: full undo is
preserved, the stack gains at most one entry per request, ends nonempty
when anything was recorded, and the bottom entry still reports the first
request's pre-state. -/
theorem applyRequests_invariant : ∀ (reqs : List Request) (d : Document),
    SeqValid d reqs → GoodStack d.undo_stack →
    undoAll (applyRequests d reqs).undo_stack (applyRequests d reqs).content
        = undoAll d.undo_stack d.content
    ∧ GoodStack (applyRequests d reqs).undo_stack
    ∧ (applyRequests d reqs).undo_stack.length
        ≤ d.undo_stack.length + reqs.length
    ∧ ((d.undo_stack ≠ [] ∨ reqs ≠ []) → (applyRequests d reqs).undo_stack ≠ [])
    ∧ ((applyRequests d reqs).undo_stack.getLast?).map okOf
        = (match d.undo_stack.getLast? with
           | some c0 => some (okOf c0)
           | none =>
             match reqs with
             | [] => none
             | r :: _ => some (okOf (buildCmd d.content r)))
  | [], d, _, hg => by
    refine ⟨rfl, hg, by simp [applyRequests], ?_, ?_⟩
    · rintro (hne | hne)
      · exact hne
      · simp at hne
    · show (d.undo_stack.getLast?).map okOf = _
      cases hlast : d.undo_stack.getLast? <;> rfl
  | r :: rs, d, hs, hg => by
    have hpair : ReqValid d.content r
        ∧ SeqValid (d.execute_command (buildCmd d.content r)).1 rs := hs
    have hstep := execute_command_undoAll d r hpair.1 hg
    have IH := applyRequests_invariant rs
      (d.execute_command (buildCmd d.content r)).1 hpair.2 hstep.2.1
    have happ : applyRequests d (r :: rs)
        = applyRequests (d.execute_command (buildCmd d.content r)).1 rs := rfl
    obtain ⟨c0', hc0'⟩ : ∃ c0',
        (d.execute_command (buildCmd d.content r)).1.undo_stack.getLast?
          = some c0' := by
      cases hl : (d.execute_command (buildCmd d.content r)).1.undo_stack.getLast?
      · rw [List.getLast?_eq_none_iff] at hl
        exact absurd hl hstep.2.2.1
      · exact ⟨_, rfl⟩
    refine ⟨?_, by rw [happ]; exact IH.2.1, ?_, ?_, ?_⟩
    · rw [happ, IH.1, hstep.1]
    · rw [happ]
      have h1 := IH.2.2.1
      have h2 := hstep.2.2.2.1
      simp only [List.length_cons]
      omega
    · intro _
      rw [happ]
      exact IH.2.2.2.1 (Or.inl hstep.2.2.1)
    · rw [happ, IH.2.2.2.2, hc0']
      show some (okOf c0') = _
      have hbase : (some (okOf c0') : Option UndoResult)
          = match d.undo_stack.getLast? with
            | none => some (okOf (buildCmd d.content r))
            | some c0 => some (okOf c0) := by
        have hb := hstep.2.2.2.2
        rw [hc0'] at hb
        exact hb
      rw [hbase]
      cases d.undo_stack.getLast? <;> rfl

/-- `undoTrace` on a document whose full undo reaches `c0`: the final
content is `c0` and the trace is the per-entry results followed by
empty-history results. -/
theorem undoTrace_spec (w : Nat) : ∀ (n : Nat) (e : Document) (c0 : Content),
    e.undo_stack.length ≤ n → undoAll e.undo_stack e.content = c0 →
    (undoTrace w n e).2.content = c0
    ∧ (undoTrace w n e).1
        = e.undo_stack.map okOf
            ++ List.replicate (n - e.undo_stack.length) UndoResult.empty
  | 0, e, c0, hlen, hall => by
    have he : e.undo_stack = [] := by
      cases h : e.undo_stack
      · rfl
      · rw [h] at hlen; simp at hlen
    rw [he] at hall
    exact ⟨hall, by simp [he, undoTrace]⟩
  | n + 1, e, c0, hlen, hall => by
    cases hst : e.undo_stack with
    | nil =>
      have hu : e.undo w = (e, UndoResult.empty) := by
        simp [Document.undo, hst]
      have IH := undoTrace_spec w n e c0 (by simp [hst]) hall
      constructor
      · show (undoTrace w n (e.undo w).1).2.content = c0
        rw [hu]
        exact IH.1
      · show (e.undo w).2 :: (undoTrace w n (e.undo w).1).1 = _
        rw [hu]
        simp only [IH.2, hst]
        simp [List.replicate_succ]
    | cons cmd rest =>
      have hu : e.undo w
          = (⟨(cmd.undo e.content).1, rest, cmd :: e.redo_stack⟩, okOf cmd) := by
        simp [Document.undo, hst, okOf, cmd_undo_meta]
      have hall' : undoAll rest (cmd.undo e.content).1 = c0 := by
        rw [hst, undoAll_cons] at hall
        exact hall
      have IH := undoTrace_spec w n
        ⟨(cmd.undo e.content).1, rest, cmd :: e.redo_stack⟩ c0
        (by rw [hst] at hlen; simpa using hlen) hall'
      constructor
      · show (undoTrace w n (e.undo w).1).2.content = c0
        rw [hu]
        exact IH.1
      · show (e.undo w).2 :: (undoTrace w n (e.undo w).1).1 = _
        rw [hu]
        simp only [IH.2, hst]
        simp [List.length_cons, Nat.succ_sub_succ]

theorem applyResults_append (s : Int × PySel) (l1 l2 : List UndoResult) :
    applyResults s (l1 ++ l2) = applyResults (applyResults s l1) l2 := by
  induction l1 generalizing s with
  | nil => rfl
  | cons x xs ih =>
    cases x with
    | empty => exact ih s
    | ok cursor selection wid => exact ih (cursor, selection)

theorem applyResults_replicate (s : Int × PySel) (k : Nat) :
    applyResults s (List.replicate k UndoResult.empty) = s := by
  induction k generalizing s with
  | zero => rfl
  | succ n ih => exact ih s

theorem applyResults_map_okOf : ∀ (stack : List Cmd) (cmd : Cmd),
    stack.getLast? = some cmd → ∀ s : Int × PySel,
    applyResults s (stack.map okOf) = (cmd.cursor_before, cmd.selection_before)
  | [], cmd, h, _ => by simp at h
  | [x], cmd, h, s => by
    simp at h
    subst h
    rfl
  | x :: y :: ys, cmd, h, s => by
    rw [List.getLast?_cons_cons] at h
    exact applyResults_map_okOf (y :: ys) cmd h
      (x.cursor_before, x.selection_before)

theorem okOf_meta {a b : Cmd} (h : okOf a = okOf b) :
    a.cursor_before = b.cursor_before ∧ a.selection_before = b.selection_before := by
  have h' : UndoResult.ok a.cursor_before a.selection_before a.window_id
      = UndoResult.ok b.cursor_before b.selection_before b.window_id := h
  injection h' with h1 h2 h3
  exact ⟨h1, h2⟩

theorem buildCmd_meta (content : Content) (r : Request) :
    (buildCmd content r).cursor_before = r.cursor
    ∧ (buildCmd content r).selection_before = r.sel := by
  obtain ⟨kind, rcur, rsel, rwid⟩ := r
  cases kind <;> exact ⟨rfl, rfl⟩

/-- C1 (amended): a bounds-valid command built against a buffer, executed
and then undone on that same buffer, is a no-op on content and reports
`(cursor_before, selection_before)`; and for any nonempty sequence of
bounds-valid requests applied to a document with no prior undo history,
undoing as many times as there were requests restores the original
content, and folding the undo results into view state the way
`EditorWindow.undo` does ends on the first request's pre-state. -/
theorem C1_execute_undo_roundtrip :
    (∀ (content : Content) (r : Request), ReqValid content r →
        (buildCmd content r).undo ((buildCmd content r).execute content).1
          = (content, r.cursor, r.sel))
    ∧ (∀ (c0 : Content) (redo0 : List Cmd) (r : Request) (rs : List Request)
        (w : Nat) (s0 : Int × PySel),
        SeqValid ⟨c0, [], redo0⟩ (r :: rs) →
        (undoTrace w (r :: rs).length
            (applyRequests ⟨c0, [], redo0⟩ (r :: rs))).2.content = c0
        ∧ applyResults s0
            (undoTrace w (r :: rs).length
              (applyRequests ⟨c0, [], redo0⟩ (r :: rs))).1
          = (r.cursor, r.sel)) := by
  constructor
  · intro content r hv
    have h1 := cmd_undo_execute (buildCmd content r) content
      (buildCmd_ValidOnFull content r hv)
    have h2 := cmd_undo_meta (buildCmd content r)
      ((buildCmd content r).execute content).1
    have hm := buildCmd_meta content r
    refine Prod.ext h1 ?_
    rw [h2, hm.1, hm.2]
  · intro c0 redo0 r rs w s0 hseq
    have hinv := applyRequests_invariant (r :: rs) ⟨c0, [], redo0⟩ hseq trivial
    have hall : undoAll (applyRequests ⟨c0, [], redo0⟩ (r :: rs)).undo_stack
        (applyRequests ⟨c0, [], redo0⟩ (r :: rs)).content = c0 := hinv.1
    have hlen : (applyRequests ⟨c0, [], redo0⟩ (r :: rs)).undo_stack.length
        ≤ (r :: rs).length := by
      have := hinv.2.2.1
      simpa using this
    have hne : (applyRequests ⟨c0, [], redo0⟩ (r :: rs)).undo_stack ≠ [] :=
      hinv.2.2.2.1 (Or.inr (by simp))
    obtain ⟨cb, hcb⟩ : ∃ cb,
        (applyRequests ⟨c0, [], redo0⟩ (r :: rs)).undo_stack.getLast?
          = some cb := by
      cases hl : (applyRequests ⟨c0, [], redo0⟩ (r :: rs)).undo_stack.getLast?
      · rw [List.getLast?_eq_none_iff] at hl
        exact absurd hl hne
      · exact ⟨_, rfl⟩
    have hmeta : okOf cb = okOf (buildCmd c0 r) := by
      have h := hinv.2.2.2.2
      rw [hcb] at h
      have h' : some (okOf cb)
          = some (okOf (buildCmd (⟨c0, [], redo0⟩ : Document).content r)) := h
      exact Option.some.inj h'
    have htr := undoTrace_spec w (r :: rs).length
      (applyRequests ⟨c0, [], redo0⟩ (r :: rs)) c0 hlen hall
    refine ⟨htr.1, ?_⟩
    rw [htr.2, applyResults_append, applyResults_map_okOf _ cb hcb s0,
      applyResults_replicate]
    have h1 := (okOf_meta hmeta).1
    have h2 := (okOf_meta hmeta).2
    rw [h1, h2, (buildCmd_meta c0 r).1, (buildCmd_meta c0 r).2]

/-- Counterexample to C1 as literally stated: the round-trip can fail even
for a bounds-valid request, because a new edit can merge into an undo
entry recorded before the sequence began.  On a document with content
`"a"` and one prior insert entry, one valid insert request followed by one
undo yields the empty buffer, not `"a"`. -/
theorem C1_counterexample :
    ReqValid ['a'] ⟨ReqKind.insertReq ['b'] 1, 1, PySel.pynone, 0⟩
    ∧ (((⟨['a'], [Cmd.ins ⟨['a'], 0, 0, PySel.pynone, 0⟩], []⟩ :
          Document).execute_command
          (buildCmd ['a'] ⟨ReqKind.insertReq ['b'] 1, 1, PySel.pynone, 0⟩)).1.undo
            0).1.content = []
    ∧ ([] : Content) ≠ ['a'] := by
  refine ⟨⟨by decide, by decide⟩, by decide, by decide⟩

/-- Witness for the amended C1 at concrete inputs. -/
theorem C1_execute_undo_roundtrip_witness :
    (buildCmd ['x'] ⟨ReqKind.insertReq ['y'] 0, 7, PySel.pynone, 2⟩).undo
        ((buildCmd ['x']
          ⟨ReqKind.insertReq ['y'] 0, 7, PySel.pynone, 2⟩).execute ['x']).1
      = (['x'], 7, PySel.pynone)
    ∧ ((undoTrace 0 1 (applyRequests ⟨[], [], []⟩
          [⟨ReqKind.insertReq ['a'] 0, 9, PySel.pair none none, 0⟩])).2.content = []
      ∧ applyResults (0, PySel.pynone)
          (undoTrace 0 1 (applyRequests ⟨[], [], []⟩
            [⟨ReqKind.insertReq ['a'] 0, 9, PySel.pair none none, 0⟩])).1
        = (9, PySel.pair none none)) :=
  ⟨C1_execute_undo_roundtrip.1 ['x']
      ⟨ReqKind.insertReq ['y'] 0, 7, PySel.pynone, 2⟩ ⟨by decide, by decide⟩,
   C1_execute_undo_roundtrip.2 [] []
      ⟨ReqKind.insertReq ['a'] 0, 9, PySel.pair none none, 0⟩ [] 0
      (0, PySel.pynone) ⟨⟨by decide, by decide⟩, trivial⟩⟩

/-- Witness for C2: typing `"abc"` at offset 1 of `"x"`. -/
theorem C2_grouping_determinism_witness :
    ((((⟨['x'], [], []⟩ : Document).execute_command
          (Cmd.ins ⟨['a'], 1, 0, PySel.pynone, 0⟩)).1.execute_command
          (Cmd.ins ⟨['b'], 1 + 1, 0, PySel.pynone, 0⟩)).1.execute_command
          (Cmd.ins ⟨['c'], 1 + 2, 0, PySel.pynone, 0⟩)).1.undo_stack
      = [Cmd.ins ⟨['a', 'b', 'c'], 1, 0, PySel.pynone, 0⟩]
    ∧ (((((⟨['x'], [], []⟩ : Document).execute_command
          (Cmd.ins ⟨['a'], 1, 0, PySel.pynone, 0⟩)).1.execute_command
          (Cmd.ins ⟨['b'], 1 + 1, 0, PySel.pynone, 0⟩)).1.execute_command
          (Cmd.ins ⟨['c'], 1 + 2, 0, PySel.pynone, 0⟩)).1.undo 0).1.content
      = ['x'] :=
  C2_grouping_determinism ['x'] [] 1 0 0 0 PySel.pynone PySel.pynone
    PySel.pynone 0 (by decide) (by decide)

/-! ## The replay invariant (C4) -/

theorem replayExec_cons (c0 : Content) (cmd : Cmd) (rest : List Cmd) :
    replayExec c0 (cmd :: rest) = (cmd.execute (replayExec c0 rest)).1 := rfl

theorem DocInv_init (c0 : Content) : DocInv c0 (initialDocument c0) :=
  ⟨rfl, trivial, trivial⟩

theorem DocInv_undo (c0 : Content) (d : Document) (w : Nat)
    (h : DocInv c0 d) : DocInv c0 (d.undo w).1 := by
  obtain ⟨hrep, hsv, hrv⟩ := h
  cases hst : d.undo_stack with
  | nil =>
    have hu : (d.undo w).1 = d := by simp [Document.undo, hst]
    rw [hu]
    exact ⟨hrep, hsv, hrv⟩
  | cons cmd rest =>
    rw [hst] at hrep hsv
    have hsv' : StackValid c0 rest ∧ cmd.ValidOnFull (replayExec c0 rest) := hsv
    have hu : (d.undo w).1
        = ⟨(cmd.undo d.content).1, rest, cmd :: d.redo_stack⟩ := by
      simp [Document.undo, hst]
    rw [hu]
    have hb : (cmd.undo d.content).1 = replayExec c0 rest := by
      rw [← hrep]
      exact cmd_undo_execute cmd (replayExec c0 rest) hsv'.2
    refine ⟨hb.symm, hsv'.1, ?_, ?_⟩
    · rw [hb]
      exact hsv'.2
    · show RedoValid d.redo_stack ((cmd.execute ((cmd.undo d.content).1)).1)
      rw [hb]
      rw [show (cmd.execute (replayExec c0 rest)).1
          = replayExec c0 (cmd :: rest) from rfl, hrep]
      exact hrv

theorem DocInv_redo (c0 : Content) (d : Document) (w : Nat)
    (h : DocInv c0 d) : DocInv c0 (d.redo w).1 := by
  obtain ⟨hrep, hsv, hrv⟩ := h
  cases hst : d.redo_stack with
  | nil =>
    have hr : (d.redo w).1 = d := by simp [Document.redo, hst]
    rw [hr]
    exact ⟨hrep, hsv, hrv⟩
  | cons cmd rest =>
    rw [hst] at hrv
    have hrv' : cmd.ValidOnFull d.content
        ∧ RedoValid rest (cmd.execute d.content).1 := hrv
    have hr : (d.redo w).1
        = ⟨(cmd.execute d.content).1, cmd :: d.undo_stack, rest⟩ := by
      simp [Document.redo, hst]
    rw [hr]
    refine ⟨?_, ⟨hsv, ?_⟩, hrv'.2⟩
    · show replayExec c0 (cmd :: d.undo_stack) = _
      rw [replayExec_cons, hrep]
    · show cmd.ValidOnFull (replayExec c0 d.undo_stack)
      rw [hrep]
      exact hrv'.1

theorem DocInv_exec (c0 : Content) (d : Document) (r : Request)
    (hv : ReqValid d.content r)
    (hnf : NoForwardDeleteMerge d (buildCmd d.content r))
    (h : DocInv c0 d) : DocInv c0 (d.execute_command (buildCmd d.content r)).1 := by
  obtain ⟨hrep, hsv, hrv⟩ := h
  rcases execute_command_eq d (buildCmd d.content r) with hx
    | ⟨last_cmd, rest, c, hstack, hcmd, hw, hp, hx⟩
    | ⟨last_cmd, rest, c, hstack, hcmd, hw, he, hx⟩
    | ⟨last_cmd, rest, c, hstack, hcmd, hw, hne, hst2, hx⟩
  · -- pushed as a new entry
    rw [hx]
    refine ⟨?_, ⟨hsv, ?_⟩, trivial⟩
    · show replayExec c0 (buildCmd d.content r :: d.undo_stack) = _
      rw [replayExec_cons, hrep]
      rfl
    · show (buildCmd d.content r).ValidOnFull (replayExec c0 d.undo_stack)
      rw [hrep]
      exact buildCmd_ValidOnFull d.content r hv
  · -- insert merge
    obtain ⟨kind, rcur, rsel, rwid⟩ := r
    cases kind with
    | deleteReq s e => exact Cmd.noConfusion hcmd
    | insertReq text off =>
      injection hcmd with hinj
      subst hinj
      rw [hstack] at hrep hsv
      have hsv' : StackValid c0 rest
          ∧ (Cmd.ins last_cmd).ValidOnFull (replayExec c0 rest) := hsv
      obtain ⟨h0, h1⟩ := hsv'.2
      have hb : (last_cmd.execute (replayExec c0 rest)).1 = d.content := hrep
      rw [hx]
      refine ⟨?_, ⟨hsv'.1, ?_⟩, trivial⟩
      · show (({ last_cmd with text := last_cmd.text ++ text } :
            InsertCommand).execute (replayExec c0 rest)).1
          = ((Cmd.ins ⟨text, off, rcur, rsel, rwid⟩).execute d.content).1
        rw [← hb]
        exact (insert_merge_exec last_cmd ⟨text, off, rcur, rsel, rwid⟩
          (replayExec c0 rest) hp h0 h1).symm
      · exact ⟨h0, h1⟩
  · -- backspace merge
    obtain ⟨kind, rcur, rsel, rwid⟩ := r
    cases kind with
    | insertReq text off => exact Cmd.noConfusion hcmd
    | deleteReq s e =>
      injection hcmd with hinj
      have hes : e = last_cmd.start := by
        have h2 := congrArg DeleteCommand.«end» hinj
        exact h2.trans he
      subst hes
      subst hinj
      rw [hstack] at hrep hsv
      have hsv' : StackValid c0 rest
          ∧ (Cmd.del last_cmd).ValidOnFull (replayExec c0 rest) := hsv
      obtain ⟨ht0, ht1, ht2, htd⟩ := hsv'.2
      have hb : (last_cmd.execute (replayExec c0 rest)).1 = d.content := hrep
      have hvs : (0 : Int) ≤ s := hv.1
      have hvss : s ≤ last_cmd.start := hv.2.1
      have hse : s ≤ last_cmd.«end» := le_trans hvss ht1
      have hkey : ((mkDeleteCommand d.content s last_cmd.start rcur rsel
            rwid).execute d.content).1
          = (replayExec c0 rest).take s.toNat
            ++ (replayExec c0 rest).drop last_cmd.«end».toNat := by
        rw [← hb]
        exact backspace_merge_exec last_cmd (replayExec c0 rest) s rcur rsel
          rwid ht0 ht1 ht2 hvs hvss
      have hdel : (mkDeleteCommand d.content s last_cmd.start rcur rsel
            rwid).deleted_text ++ last_cmd.deleted_text
          = pySlice (replayExec c0 rest) s last_cmd.«end» := by
        rw [← hb]
        exact backspace_merge_deleted last_cmd (replayExec c0 rest) s rcur
          rsel rwid ht0 ht1 ht2 hvs hvss htd
      rw [hx]
      refine ⟨?_, ⟨hsv'.1, ?_, ?_, ?_, ?_⟩, trivial⟩
      · exact (delete_execute_content
          (⟨s, last_cmd.«end»,
            pySlice d.content s last_cmd.start ++ last_cmd.deleted_text,
            last_cmd.cursor_before, last_cmd.selection_before,
            last_cmd.window_id⟩ : DeleteCommand)
          (replayExec c0 rest) hvs hse ht2).trans hkey.symm
      · exact hvs
      · exact hse
      · exact ht2
      · exact hdel
  · -- the forward-delete merge branch is excluded by `hnf`
    exfalso
    obtain ⟨kind, rcur, rsel, rwid⟩ := r
    cases kind with
    | insertReq text off => exact Cmd.noConfusion hcmd
    | deleteReq s e =>
      have hnf' : c.window_id = last_cmd.window_id →
          c.«end» ≠ last_cmd.start → c.start ≠ last_cmd.start := by
        rw [hcmd] at hnf
        unfold NoForwardDeleteMerge at hnf
        rw [hstack] at hnf
        exact hnf
      exact absurd hst2 (hnf' hw hne)

theorem DocInv_step (c0 : Content) {d d' : Document} (h : DocStep d d')
    (hinv : DocInv c0 d) : DocInv c0 d' := by
  cases h with
  | exec r hv hnf => exact DocInv_exec c0 d r hv hnf hinv
  | undo w => exact DocInv_undo c0 d w hinv
  | redo w => exact DocInv_redo c0 d w hinv

/-- C4 (amended): at every document state reachable from a freshly loaded
document by bounds-valid edits that never trigger the forward-delete merge
branch, plus undos and redos, replaying every `undo_stack` command in
order (oldest first) over the initial content reproduces the current
content exactly.  (For a document loaded with empty initial content this
is the spec's empty-buffer replay.) -/
theorem C4_replay_invariant (c0 : Content) (d : Document)
    (h : ReachableDoc c0 d) : replayExec c0 d.undo_stack = d.content := by
  have hinv : DocInv c0 d := by
    induction h with
    | refl => exact DocInv_init c0
    | tail hr hstep ih => exact DocInv_step c0 hstep ih
  exact hinv.1

/-- Counterexample to C4 as literally stated: two forward deletes
(`Delete`-key) at the same offset merge into an entry whose re-execution
does not reproduce the edits.  Starting from an empty document, inserting
`"abcd"` and deleting offset range `[1,2)` twice leaves content `"ad"`,
but replaying the undo stack over the empty buffer yields `"acd"`. -/
theorem C4_counterexample :
    replayExec []
        ((((⟨[], [], []⟩ : Document).execute_command
            (Cmd.ins ⟨['a', 'b', 'c', 'd'], 0, 0, PySel.pynone, 0⟩)).1.execute_command
            (Cmd.del (mkDeleteCommand ['a', 'b', 'c', 'd'] 1 2 1 PySel.pynone
              0))).1.execute_command
            (Cmd.del (mkDeleteCommand ['a', 'c', 'd'] 1 2 1 PySel.pynone
              0))).1.undo_stack
      = ['a', 'c', 'd']
    ∧ (((((⟨[], [], []⟩ : Document).execute_command
            (Cmd.ins ⟨['a', 'b', 'c', 'd'], 0, 0, PySel.pynone, 0⟩)).1.execute_command
            (Cmd.del (mkDeleteCommand ['a', 'b', 'c', 'd'] 1 2 1 PySel.pynone
              0))).1.execute_command
            (Cmd.del (mkDeleteCommand ['a', 'c', 'd'] 1 2 1 PySel.pynone
              0))).1).content
      = ['a', 'd']
    ∧ (['a', 'c', 'd'] : Content) ≠ ['a', 'd'] := by
  refine ⟨by decide, by decide, by decide⟩

/-- Witness for the amended C4: a reachable state after one valid insert. -/
theorem C4_replay_invariant_witness :
    replayExec [] ((initialDocument []).execute_command
        (buildCmd [] ⟨ReqKind.insertReq ['a'] 0, 0, PySel.pynone, 0⟩)).1.undo_stack
      = ((initialDocument []).execute_command
          (buildCmd [] ⟨ReqKind.insertReq ['a'] 0, 0, PySel.pynone, 0⟩)).1.content :=
  C4_replay_invariant [] _
    (Relation.ReflTransGen.tail Relation.ReflTransGen.refl
      (DocStep.exec (initialDocument [])
        ⟨ReqKind.insertReq ['a'] 0, 0, PySel.pynone, 0⟩
        ⟨by decide, by decide⟩ trivial))

/-! ## Coordinate mapper facts -/

theorem splitNl_ne_nil : ∀ c : Content, splitNl c ≠ []
  | [] => by simp [splitNl]
  | ch :: rest => by
    unfold splitNl
    by_cases h : ch = '\n'
    · simp [h]
    · rw [if_neg h]
      cases hsp : splitNl rest with
      | nil => simp
      | cons line lines => simp

theorem splitNl_sizes : ∀ c : Content,
    ((splitNl c).map (fun l => l.length + 1)).sum = c.length + 1
  | [] => rfl
  | ch :: rest => by
    unfold splitNl
    by_cases h : ch = '\n'
    · rw [if_pos h]
      have := splitNl_sizes rest
      simp only [List.map_cons, List.sum_cons, this, List.length_nil,
        List.length_cons]
      omega
    · rw [if_neg h]
      cases hsp : splitNl rest with
      | nil => exact absurd hsp (splitNl_ne_nil rest)
      | cons line lines =>
        have hrec := splitNl_sizes rest
        rw [hsp] at hrec
        simp only [List.map_cons, List.sum_cons] at hrec ⊢
        simp only [List.length_cons]
        omega

theorem gppAux_fallback : ∀ (lines : List Content) (pos : Int)
    (fb : Int × Int) (row cp : Int),
    cp + (((lines.map (fun l => l.length + 1)).sum : Nat) : Int) ≤ pos →
    gppAux pos fb lines row cp = fb
  | [], pos, fb, row, cp, _ => rfl
  | line :: rest, pos, fb, row, cp, h => by
    unfold gppAux
    rw [if_neg (by rw [List.map_cons, List.sum_cons] at h; omega)]
    exact gppAux_fallback rest pos fb (row + 1) (cp + (line.length : Int) + 1)
      (by rw [List.map_cons, List.sum_cons] at h; omega)

theorem gppAux_shift : ∀ (lines : List Content), lines ≠ [] →
    ∀ (pos : Int) (fb fb' : Int × Int) (row cp : Int),
    pos + 1 ≤ cp + (((lines.map (fun l => l.length + 1)).sum : Nat) : Int) →
    gppAux pos fb lines row cp
      = ((gppAux (pos - cp) fb' lines 0 0).1 + row,
         (gppAux (pos - cp) fb' lines 0 0).2)
  | [], hne, _, _, _, _, _, _ => absurd rfl hne
  | line :: rest, _, pos, fb, fb', row, cp, h => by
    by_cases hcond : pos ≤ cp + (line.length : Int)
    · unfold gppAux
      rw [if_pos hcond, if_pos (by omega)]
      exact Prod.ext (by simp; omega) (by simp)
    · cases hrest : rest with
      | nil =>
        exfalso
        subst hrest
        simp only [List.map_cons, List.map_nil, List.sum_cons, List.sum_nil] at h
        omega
      | cons y ys =>
        subst hrest
        unfold gppAux
        rw [if_neg hcond, if_neg (by omega)]
        rw [gppAux_shift (y :: ys) (by simp) pos fb fb' (row + 1)
          (cp + (line.length : Int) + 1)
          (by rw [List.map_cons, List.sum_cons] at h; omega)]
        rw [gppAux_shift (y :: ys) (by simp) (pos - cp) fb' fb' (0 + 1)
          (0 + (line.length : Int) + 1)
          (by rw [List.map_cons, List.sum_cons] at h; omega)]
        have harg : pos - cp - (0 + (line.length : Int) + 1)
            = pos - (cp + (line.length : Int) + 1) := by ring
        rw [harg]
        exact Prod.ext (by simp; omega) (by simp)

theorem pyGetLine_cons_pos (l : Content) (ls : List Content) (i : Int)
    (h : 1 ≤ i) : pyGetLine (l :: ls) i = pyGetLine ls (i - 1) := by
  unfold pyGetLine
  rw [if_neg (by omega), if_neg (by omega)]
  have : i.toNat = (i - 1).toNat + 1 := by omega
  rw [this]
  simp

/-- Core of the coordinate round-trip: for an in-range relative offset,
the row scan lands on a row whose prefix sum plus column reproduces the
offset, and the row index is in range. -/
theorem gpp_gifp_core : ∀ (lines : List Content), lines ≠ [] →
    ∀ (q : Int) (fb : Int × Int), 0 ≤ q →
    q + 1 ≤ (((lines.map (fun l => l.length + 1)).sum : Nat) : Int) →
    1 ≤ (gppAux q fb lines 0 0).1
    ∧ (gppAux q fb lines 0 0).1 - 1 < (lines.length : Int)
    ∧ gifpLoop ((gppAux q fb lines 0 0).1 - 1) lines
        + min (gppAux q fb lines 0 0).2
            ((pyGetLine lines ((gppAux q fb lines 0 0).1 - 1)).length : Int)
      = q
  | [], hne, _, _, _, _ => absurd rfl hne
  | line :: rest, _, q, fb, h0, hle => by
    by_cases hq : q ≤ (line.length : Int)
    · have hr : gppAux q fb (line :: rest) 0 0 = (0 + 1, q - 0) := by
        unfold gppAux
        rw [if_pos (by omega)]
      rw [hr]
      have e1 : (0 + 1 : Int) - 1 = 0 := by ring
      have e2 : gifpLoop 0 (line :: rest) = 0 := by
        unfold gifpLoop
        rw [if_pos le_rfl]
      have e3 : pyGetLine (line :: rest) 0 = line := by
        unfold pyGetLine
        rw [if_neg (by omega)]
        rfl
      rw [e1, e2, e3]
      refine ⟨by omega, by simp, ?_⟩
      have : min (q - 0) ((line.length : Int)) = q - 0 := by omega
      rw [this]
      ring
    · have hrestne : rest ≠ [] := by
        cases rest with
        | nil =>
          exfalso
          simp only [List.map_cons, List.map_nil, List.sum_cons,
            List.sum_nil] at hle
          omega
        | cons y ys => simp
      have hstep : gppAux q fb (line :: rest) 0 0
          = gppAux q fb rest (0 + 1) (0 + (line.length : Int) + 1) := by
        conv_lhs => unfold gppAux
        rw [if_neg (by omega)]
      have hsum : q + 1 ≤ (0 + (line.length : Int) + 1)
          + (((rest.map (fun l => l.length + 1)).sum : Nat) : Int) := by
        simp only [List.map_cons, List.sum_cons] at hle
        push_cast at hle ⊢
        omega
      have hshift := gppAux_shift rest hrestne q fb fb (0 + 1)
        (0 + (line.length : Int) + 1) hsum
      have IH := gpp_gifp_core rest hrestne
        (q - (0 + (line.length : Int) + 1)) fb (by omega)
        (by simp only [List.map_cons, List.sum_cons] at hle; push_cast at hle ⊢;
            omega)
      rw [hstep, hshift]
      obtain ⟨ih1, ih2, ih3⟩ := IH
      have e1 : (gppAux (q - (0 + (line.length : Int) + 1)) fb rest 0 0).1
          + (0 + 1) - 1
          = (gppAux (q - (0 + (line.length : Int) + 1)) fb rest 0 0).1 := by
        ring
      rw [e1]
      have e2 : gifpLoop
            ((gppAux (q - (0 + (line.length : Int) + 1)) fb rest 0 0).1)
            (line :: rest)
          = (line.length : Int) + 1
            + gifpLoop
              ((gppAux (q - (0 + (line.length : Int) + 1)) fb rest 0 0).1 - 1)
              rest := by
        conv_lhs => unfold gifpLoop
        rw [if_neg (by omega)]
      have e3 := pyGetLine_cons_pos line rest
        ((gppAux (q - (0 + (line.length : Int) + 1)) fb rest 0 0).1) ih1
      rw [e2, e3]
      refine ⟨by omega, by simp only [List.length_cons]; push_cast; omega, ?_⟩
      rw [add_assoc, ih3]
      ring

/-- C7: converting a valid offset to `(row, col)` and back yields the
same offset: the coordinate mapping functions are mutually inverse on
`[0, len(content)]`. -/
theorem C7_coordinate_roundtrip (content : Content) (o : Int)
    (h0 : 0 ≤ o) (h1 : o ≤ (content.length : Int)) :
    get_index_from_position content
        (get_position_from_index content o).1
        (get_position_from_index content o).2 = o := by
  have hne := splitNl_ne_nil content
  have hsz := splitNl_sizes content
  have hcore := gpp_gifp_core (splitNl content) hne o
    (((splitNl content).length : Int),
     (((splitNl content).getLastD []).length : Int)) h0
    (by rw [hsz]; push_cast; omega)
  simp only [get_position_from_index, get_index_from_position]
  rw [if_pos hcore.2.1]
  exact hcore.2.2

/-- Witness for C7 on the spec's example buffer. -/
theorem C7_coordinate_roundtrip_witness :
    get_index_from_position ['a', 'b', '\n', 'c', 'd']
        (get_position_from_index ['a', 'b', '\n', 'c', 'd'] 4).1
        (get_position_from_index ['a', 'b', '\n', 'c', 'd'] 4).2 = 4 :=
  C7_coordinate_roundtrip ['a', 'b', '\n', 'c', 'd'] 4 (by decide) (by decide)

/-- Counterexample to C8 as stated: the conversion has no error path at
all.  The out-of-range offset 3 on the two-character buffer `"ab"` is
silently clamped: it yields the same `(row, col)` as the largest valid
offset 2, instead of failing with `OutOfRange`. -/
theorem C8_counterexample :
    get_position_from_index ['a', 'b'] 3 = (1, 2)
    ∧ get_position_from_index ['a', 'b'] 2 = (1, 2)
    ∧ (2 : Int) < 3 := by
  refine ⟨by decide, by decide, by decide⟩

/-- C8 (amended): `get_position_from_index` never fails.  A negative
offset is returned as row 1 with the negative value itself as the column;
an offset greater than `len(content)` falls through the row scan and is
clamped to the final fallback position `(number_of_rows,
len(last_line))`. -/
theorem C8_out_of_range_clamped (content : Content) (o : Int) :
    (o < 0 → get_position_from_index content o = (1, o))
    ∧ ((content.length : Int) < o →
        get_position_from_index content o
          = (((splitNl content).length : Int),
             (((splitNl content).getLastD []).length : Int))) := by
  constructor
  · intro ho
    simp only [get_position_from_index]
    cases hsp : splitNl content with
    | nil => exact absurd hsp (splitNl_ne_nil content)
    | cons line rest =>
      have : gppAux o (((line :: rest).length : Int),
          (((line :: rest).getLastD []).length : Int)) (line :: rest) 0 0
          = (0 + 1, o - 0) := by
        conv_lhs => unfold gppAux
        rw [if_pos (by omega)]
      rw [this]
      exact Prod.ext (by simp) (by simp)
  · intro ho
    simp only [get_position_from_index]
    exact gppAux_fallback (splitNl content) o _ 0 0
      (by rw [splitNl_sizes content]; push_cast; omega)

/-- Witness for the amended C8 at concrete out-of-range offsets. -/
theorem C8_out_of_range_clamped_witness :
    get_position_from_index ['a', 'b'] (-1) = (1, -1)
    ∧ get_position_from_index ['a', 'b'] 3
        = (((splitNl ['a', 'b']).length : Int),
           (((splitNl ['a', 'b']).getLastD []).length : Int)) :=
  ⟨(C8_out_of_range_clamped ['a', 'b'] (-1)).1 (by decide),
   (C8_out_of_range_clamped ['a', 'b'] 3).2 (by decide)⟩

/-- Counterexample to C9 as stated: command construction and execution
never validate offsets.  An insert at offset 5 into the two-character
buffer `"ab"` is silently applied at the clamped position (the end of the
buffer), and a delete with `end` 99 is silently applied through the end of
the buffer; neither fails. -/
theorem C9_counterexample :
    ((InsertCommand.mk ['X'] 5 0 PySel.pynone 0).execute ['a', 'b']).1
      = ['a', 'b', 'X']
    ∧ ((mkDeleteCommand ['a', 'b'] 0 99 0 PySel.pynone 0).execute ['a', 'b']).1
      = []
    ∧ (['a', 'b', 'X'] : Content) ≠ ['a', 'b'] := by
  refine ⟨by decide, by decide, by decide⟩

/-- C9 (amended): insert and delete offsets are never validated against
the buffer; Python slice clamping applies instead.  An insert whose
offset is at least `len(content)` is applied at the end of the buffer,
and a delete whose `end` reaches past the buffer deletes everything from
`start` on; no `OutOfRange` error is raised anywhere. -/
theorem C9_offsets_not_validated (content text : Content) (pos : Int)
    (cb : Int) (sb : PySel) (w : Nat) (s e cb2 : Int) (sb2 : PySel) (w2 : Nat) :
    ((content.length : Int) ≤ pos →
      ((InsertCommand.mk text pos cb sb w).execute content).1 = content ++ text)
    ∧ (0 ≤ s → s ≤ (content.length : Int) → (content.length : Int) ≤ e →
      ((mkDeleteCommand content s e cb2 sb2 w2).execute content).1
        = content.take s.toNat) := by
  constructor
  · intro hp
    show pySliceTo content pos ++ text ++ pySliceFrom content pos = content ++ text
    unfold pySliceTo pySliceFrom
    rw [pyIdx_of_ge hp, List.take_length, List.drop_length, List.append_nil]
  · intro hs0 hs1 he
    show pySliceTo content s ++ pySliceFrom content e = content.take s.toNat
    rw [pySliceTo_eq_take hs0 hs1]
    unfold pySliceFrom
    rw [pyIdx_of_ge he, List.drop_length, List.append_nil]

/-- Witness for the amended C9 at concrete out-of-range requests. -/
theorem C9_offsets_not_validated_witness :
    ((InsertCommand.mk ['X'] 5 0 PySel.pynone 0).execute ['a', 'b']).1
        = ['a', 'b'] ++ ['X']
    ∧ ((mkDeleteCommand ['a', 'b'] 1 99 0 PySel.pynone 0).execute ['a', 'b']).1
        = (['a', 'b'] : Content).take (1 : Int).toNat :=
  ⟨(C9_offsets_not_validated ['a', 'b'] ['X'] 5 0 PySel.pynone 0 1 99 0
      PySel.pynone 0).1 (by decide),
   (C9_offsets_not_validated ['a', 'b'] ['X'] 5 0 PySel.pynone 0 1 99 0
      PySel.pynone 0).2 (by decide) (by decide) (by decide)⟩
